import Mathlib

/-!
# Verification of the pdftoFigures extraction core

A shallow embedding of the heuristic extraction pipeline:
paragraph reconstruction and table detection (`src/extractor.py`),
heading classification, section titling, figure extraction and word-window
chunking (`src/parser.py`), and the keyword retrieval engine
(`src/query.py`), over the data model of `src/datamodel.py`.

Modelling conventions:
* Python strings are `List Char`; `None`-able strings are `Option (List Char)`.
  Character classes (`isdigit`, `isalpha`, `isupper`, whitespace, `\w`) are
  modelled by the corresponding ASCII-level `Char` predicates.
* Python floats are modelled exactly where a claim depends on their values:
  coordinates are integers (the heuristics only compare, subtract and shift
  them, and no claim involves fractional coordinates), scores are `ℚ`, and
  the uppercase-ratio comparison
  `upper/alpha >= 0.6` as the exact rational inequality `3*alpha ≤ 5*upper`.
  The retrieval engine's idf weights (floating-point logarithms in the code)
  are abstracted into an arbitrary weight function `idf : Token → ℚ`; every
  retrieval property proved here holds for every weight assignment, hence in
  particular for the logarithmic one.
* Python's stable `sorted`/`list.sort` is `List.mergeSort`, which is stable.
* Python exceptions are modelled with `Except PyError`.
-/

namespace PdfToFigures

/-- Python exceptions that the modelled code can raise. -/
inductive PyError where
  | typeError : PyError
  | indexError : PyError
deriving DecidableEq, Repr

/-! ## Characters, words and joining (`str.split`, `" ".join`, `re` helpers) -/

/-- Whitespace test used by `str.split()` / `str.strip()` / `\s` (ASCII model). -/
def isSpc (c : Char) : Bool := c.isWhitespace

/-- Word character for the regex `\w` (ASCII model): alphanumeric or underscore. -/
def isWordChar (c : Char) : Bool := c.isAlphanum || c == '_'

/-- Maximal runs of characters satisfying `keep`, accumulator-based
(the accumulator holds the current run, reversed). -/
def runsAux (keep : Char → Bool) : List Char → List Char → List (List Char)
  | [], acc => if acc.isEmpty then [] else [acc.reverse]
  | c :: cs, acc =>
    if keep c then runsAux keep cs (c :: acc)
    else if acc.isEmpty then runsAux keep cs []
    else acc.reverse :: runsAux keep cs []

/-- Maximal runs of characters satisfying `keep`; separators are dropped. -/
def runs (keep : Char → Bool) (cs : List Char) : List (List Char) :=
  runsAux keep cs []

/-- Python `str.split()` with no arguments: maximal runs of non-whitespace. -/
def wordsOf (cs : List Char) : List (List Char) :=
  runs (fun c => !isSpc c) cs

/-- Python `" ".join(ws)`. -/
def joinWords : List (List Char) → List Char
  | [] => []
  | [w] => w
  | w :: ws => w ++ ' ' :: joinWords ws

/-- Python `str.strip()`: drop leading and trailing whitespace. -/
def pyStrip (cs : List Char) : List Char :=
  ((cs.dropWhile isSpc).reverse.dropWhile isSpc).reverse

/-- Collapse every maximal whitespace run to a single `' '`
(the substitution `re.sub(r"\s+", " ", ·)`). -/
def collapseWs : List Char → List Char
  | [] => []
  | [c] => if isSpc c then [' '] else [c]
  | c₁ :: c₂ :: cs =>
    if isSpc c₁ && isSpc c₂ then collapseWs (c₂ :: cs)
    else (if isSpc c₁ then ' ' else c₁) :: collapseWs (c₂ :: cs)

/-- Model of `parser._normalise_whitespace`: `re.sub(r"\s+", " ", text.strip())`. -/
def normaliseWhitespace (cs : List Char) : List Char :=
  collapseWs (pyStrip cs)

/-- Whether `text` contains a digit (`re.search(r"\d", text)`). -/
def containsDigit (cs : List Char) : Bool := cs.any Char.isDigit

/-- The regex `\d{3}[.,]\d{3}` matches at the head of the character list. -/
def numPatAt : List Char → Bool
  | d₁ :: d₂ :: d₃ :: s :: e₁ :: e₂ :: e₃ :: _ =>
    d₁.isDigit && d₂.isDigit && d₃.isDigit && (s == '.' || s == ',') &&
      e₁.isDigit && e₂.isDigit && e₃.isDigit
  | _ => false

/-- Model of `re.search(r"\d{3}[.,]\d{3}", text)`: the pattern matches somewhere. -/
def searchNumPat : List Char → Bool
  | [] => false
  | c :: cs => numPatAt (c :: cs) || searchNumPat cs

/-- Python substring containment `t in s` on character lists: `t` occurs as a
contiguous (possibly empty) segment of `s`. -/
def containsSub (t : List Char) : List Char → Bool
  | [] => t.isEmpty
  | c :: cs => t.isPrefixOf (c :: cs) || containsSub t cs

/-! ## Data model (`src/datamodel.py`) -/

/-- Model of `ReaderConfig`.  Only `line_break_distance` is read by the modelled core;
the remaining fields are declared but never enforced (spec §9). -/
structure ReaderConfig where
  space_max_distance : Int := 6
  line_break_distance : Int := 14
  column_tolerance : Int := 10
  min_table_cols : Nat := 2
  min_table_rows : Nat := 2
deriving DecidableEq, Repr

/-- Model of `ParsedElement`: a rectangle plus optional text.
Coordinates are exact integers (see the header note on floats). -/
structure ParsedElement where
  x0 : Int
  y0 : Int
  x1 : Int
  y1 : Int
  text : Option (List Char) := none
  has_bold : Bool := false
deriving DecidableEq, Repr

/-- Model of `ParsedTable`: a rectangle plus rows of cell strings. -/
structure ParsedTable where
  x0 : Int
  y0 : Int
  x1 : Int
  y1 : Int
  rows : List (List (List Char)) := []
deriving DecidableEq, Repr

/-- Model of `ParsedPage` (the fields the core reads: index and elements). -/
structure ParsedPage where
  index : Nat
  width : Int
  height : Int
  elements : List ParsedElement := []
deriving DecidableEq, Repr

/-- Chunk metadata attached by `parse_financial_report`. -/
structure ChunkMetadata where
  paragraph_index : Nat
  page_number : Nat
  section_title : List Char
  figure_identifiers : List (List Char)
deriving DecidableEq, Repr

/-- Model of `TextChunk`. -/
structure TextChunk where
  page_index : Nat
  chunk_index : Nat
  text : List Char
  metadata : ChunkMetadata
deriving DecidableEq, Repr

/-- Model of `ChunkMatch`: a chunk with its retrieval score.  Scores are exact
rationals standing for the floating-point idf sums of the code. -/
structure ChunkMatch where
  chunk : TextChunk
  score : ℚ
deriving DecidableEq, Repr

/-! ## Paragraph reconstruction (`extractor.group_paragraphs`) -/

/-- The filter `[e for e in elements if e.text]`: Python truthiness keeps
exactly the elements whose text is neither `None` nor the empty string. -/
def keepElem (e : ParsedElement) : Bool :=
  match e.text with
  | none => false
  | some t => !t.isEmpty

/-- The text of a kept element (all kept elements have `some` text). -/
def elemText (e : ParsedElement) : List Char := e.text.getD []

/-- Comparison used by `sorted(..., key=lambda e: -e.y0)`: ascending in
`-y0`, i.e. descending in `y0`.  `mergeSort` with this comparison is stable,
exactly like Python's `sorted`. -/
def byDescY0 (a b : ParsedElement) : Bool := decide (b.y0 ≤ a.y0)

/-- Python's built-in `abs` on an exact integer coordinate. -/
def pyAbs (q : Int) : Int := if q < 0 then -q else q

/-- The grouping walk of `group_paragraphs`: maintain the current paragraph
buffer and the previous element's `y0`; flush when the `y0` gap exceeds
`line_break_distance`; flush the final non-empty buffer. -/
def groupWalk (lbd : Int) : List ParsedElement → List ParsedElement → Option Int →
    List (List Char)
  | [], current, _ =>
    if current.isEmpty then [] else [joinWords (current.map elemText)]
  | el :: rest, current, lastY =>
    match lastY with
    | none => groupWalk lbd rest (current ++ [el]) (some el.y0)
    | some ly =>
      if pyAbs (ly - el.y0) > lbd then
        joinWords (current.map elemText) :: groupWalk lbd rest [el] (some el.y0)
      else
        groupWalk lbd rest (current ++ [el]) (some el.y0)

/-- Model of `extractor.group_paragraphs(elements, cfg)`. -/
def group_paragraphs (elements : List ParsedElement) (cfg : ReaderConfig) :
    List (List Char) :=
  let lines := (elements.filter keepElem).mergeSort byDescY0
  groupWalk cfg.line_break_distance lines [] none

/-! ## Table detection (`extractor.detect_tables`) -/

/-- The comprehension `[e for e in elements if text in e.text][0]`.
Python evaluates `text in e.text` for every element while building the list,
so any element whose text is `None` raises `TypeError`; indexing an empty
result raises `IndexError`. -/
def firstContaining (t : List Char) (elements : List ParsedElement) :
    Except PyError ParsedElement :=
  if elements.any (fun e => e.text.isNone) then .error .typeError
  else
    match elements.filter (fun e => containsSub t (elemText e)) with
    | [] => .error .indexError
    | e :: _ => .ok e

/-- The table built for one matched line: full-width band `[0, 1000]` at the
located `y0`, height `15`, a single row with the matched text as only cell. -/
def mkTable (y : Int) (t : List Char) : ParsedTable :=
  { x0 := 0, y0 := y, x1 := 1000, y1 := y + 15, rows := [[t]] }

/-- Model of `extractor.detect_tables(elements, cfg)`.  The texts with a digit are
collected first; each one matching `\d{3}[.,]\d{3}` contributes a table at
the `y0` of the first element whose text contains it as a substring.
An exception anywhere aborts the whole call. -/
def detect_tables (elements : List ParsedElement) :
    Except PyError (List ParsedTable) :=
  let textLines := elements.filterMap fun e =>
    match e.text with
    | none => none
    | some t => if !t.isEmpty && containsDigit t then some t else none
  textLines.foldlM
    (fun acc t =>
      if searchNumPat t then do
        let e ← firstContaining t elements
        pure (acc ++ [mkTable e.y0 t])
      else pure acc)
    []

/-! ## Heading classification and section titles (`src/parser.py`) -/

/-- Model of `parser._HEADING_MAX_WORDS`. -/
def HEADING_MAX_WORDS : Nat := 12

/-- Python `str.isdigit()` (ASCII model): non-empty and all digits. -/
def pyIsDigit (w : List Char) : Bool := !w.isEmpty && w.all Char.isDigit

/-- Python `word[:1].isupper()`: the first character exists and is uppercase. -/
def firstCharUpper : List Char → Bool
  | [] => false
  | c :: _ => c.isUpper

/-- Model of `parser._looks_like_heading(paragraph)`.  The floating-point test
`upper/alpha >= 0.6` is the exact rational inequality `3*alpha ≤ 5*upper`. -/
def _looks_like_heading (paragraph : List Char) : Bool :=
  let text := normaliseWhitespace paragraph
  if text.isEmpty then false
  else
    let words := wordsOf text
    if words.length == 1 && pyIsDigit (words.headD []) then true
    else if words.length > HEADING_MAX_WORDS then false
    else if text.getLast? == some '.' then false
    else if text.getLast? == some ':' then true
    else
      let alphaChars := text.filter Char.isAlpha
      if !alphaChars.isEmpty &&
          3 * alphaChars.length ≤ 5 * (alphaChars.filter Char.isUpper).length then
        true
      else words.countP firstCharUpper == words.length

/-- Model of `parser._default_section_title(page_index)`: the text `Page n`
where `n` is the 1-based page number. -/
def _default_section_title (pageIndex : Nat) : List Char :=
  "Page ".toList ++ (Nat.repr (pageIndex + 1)).toList

/-- Python truthiness of an `Optional[str]`. -/
def pyTruthyOpt : Option (List Char) → Bool
  | none => false
  | some s => !s.isEmpty

/-- Model of `re.split(r"(?<=[.!?])\s+", text)[0]`: the initial segment up to and including the
first sentence-ending punctuation character that is followed by whitespace. -/
def firstSentence : List Char → List Char
  | [] => []
  | [c] => [c]
  | c₁ :: c₂ :: cs =>
    if (c₁ == '.' || c₁ == '!' || c₁ == '?') && isSpc c₂ then [c₁]
    else c₁ :: firstSentence (c₂ :: cs)

/-- Model of `parser._derive_section_title(paragraph, page_index, current_section)`. -/
def _derive_section_title (paragraph : List Char) (pageIndex : Nat)
    (currentSection : Option (List Char)) : List Char :=
  if pyTruthyOpt currentSection then currentSection.getD []
  else
    let text := normaliseWhitespace paragraph
    if text.isEmpty then _default_section_title pageIndex
    else
      let words := wordsOf (firstSentence text)
      if words.isEmpty then _default_section_title pageIndex
      else
        let snippet := joinWords (words.take 8)
        if snippet.isEmpty then _default_section_title pageIndex else snippet

/-! ## Figure reference extraction (`parser._extract_figure_identifiers`) -/

/-- Case-insensitive literal prefix match: if the head of `s`, lowercased,
spells `pat`, return the remaining suffix. -/
def lowerPrefixDrop : List Char → List Char → Option (List Char)
  | [], s => some s
  | _, [] => none
  | p :: ps, c :: cs => if c.toLower == p then lowerPrefixDrop ps cs else none

/-- After the keyword: `\s*(\d+[A-Za-z\-]*)`.  Returns the captured label and
the unconsumed suffix, or `none` when no digit follows. -/
def parseFigLabel (s : List Char) : Option (List Char × List Char) :=
  let s₁ := s.dropWhile isSpc
  let ds := s₁.takeWhile Char.isDigit
  if ds.isEmpty then none
  else
    let rest := s₁.dropWhile Char.isDigit
    let lab := rest.takeWhile (fun c => c.isAlpha || c == '-')
    some (ds ++ lab, rest.dropWhile (fun c => c.isAlpha || c == '-'))

/-- One left-to-right, non-overlapping scan of
`re.findall(r"\b(?:figure|fig\.)\s*(\d+[A-Za-z\-]*)", ·, re.IGNORECASE)`.
`prevWord` records whether the previous character is a word character (the
`\b` context); the fuel argument only justifies termination and is always
called with at least the length of the remaining text plus one. -/
def figScan : Nat → List Char → Bool → List (List Char)
  | 0, _, _ => []
  | _ + 1, [], _ => []
  | fuel + 1, c :: cs, prevWord =>
    let attempt : Option (List Char × List Char) :=
      if prevWord then none
      else
        match lowerPrefixDrop "figure".toList (c :: cs) with
        | some rest => parseFigLabel rest
        | none =>
          match lowerPrefixDrop "fig.".toList (c :: cs) with
          | some rest => parseFigLabel rest
          | none => none
    match attempt with
    | some (label, rest) =>
      label :: figScan fuel rest (match label.getLast? with
        | some l => isWordChar l
        | none => false)
    | none => figScan fuel cs (isWordChar c)

/-- Formatting loop of `_extract_figure_identifiers`: strip each captured
label, skip empties, render `"Figure {label}"`, deduplicate keeping the
first occurrence. -/
def formatFigures : List (List Char) → List (List Char) → List (List Char)
  | acc, [] => acc
  | acc, label :: rest =>
    let lab := pyStrip label
    if lab.isEmpty then formatFigures acc rest
    else
      let formatted := "Figure ".toList ++ lab
      if acc.contains formatted then formatFigures acc rest
      else formatFigures (acc ++ [formatted]) rest

/-- Model of `parser._extract_figure_identifiers(paragraph)`. -/
def _extract_figure_identifiers (paragraph : List Char) : List (List Char) :=
  formatFigures [] (figScan (paragraph.length + 1) paragraph false)

/-! ## Chunking (`parser._split_into_chunks`) -/

/-- Model of `parser.CHUNK_SIZE_WORDS`. -/
def CHUNK_SIZE_WORDS : Int := 120

/-- Model of `parser.CHUNK_OVERLAP_WORDS`. -/
def CHUNK_OVERLAP_WORDS : Int := 30

/-- The `while start < total` loop of `_split_into_chunks`, expressed over the
suffix of the word list that starts at `start`.  Each iteration emits
`words[start:start+size]` and either stops (when the window reaches the end)
or advances by `step`.  The fuel argument only justifies termination: since
`step ≥ 1`, a fuel of the initial word count is enough (`chunkLoop_fuel`). -/
def chunkLoop (size step : Nat) : Nat → List (List Char) → List (List Char)
  | 0, _ => []
  | _ + 1, [] => []
  | fuel + 1, w :: ws =>
    let chunkWords := (w :: ws).take size
    if chunkWords.isEmpty then []
    else
      joinWords chunkWords ::
        (if (w :: ws).length ≤ size then []
         else chunkLoop size step fuel ((w :: ws).drop step))

/-- Model of `parser._split_into_chunks(paragraph, chunk_size_words, overlap_words)`.
Arguments are Python integers, so they may be zero or negative; the body
clamps the window size to at least 1, the overlap into `[0, size-1]`, and
the step to at least 1. -/
def _split_into_chunks (paragraph : List Char)
    (chunk_size_words overlap_words : Int) : List (List Char) :=
  let words := wordsOf paragraph
  if words.isEmpty then []
  else
    let size : Int := max 1 chunk_size_words
    let overlap : Int := max 0 (min overlap_words (size - 1))
    let step : Int := max 1 (size - overlap)
    chunkLoop size.toNat step.toNat words.length words

/-! ## Document chunk emission (`parser.parse_financial_report`) -/

/-- The chunk records built for one paragraph's chunk texts, consuming
consecutive global chunk indices starting at `start`. -/
def mkChunksFor (pageIndex paragraphIndex : Nat) (title : List Char)
    (figs : List (List Char)) : Nat → List (List Char) → List TextChunk
  | _, [] => []
  | start, t :: ts =>
    { page_index := pageIndex, chunk_index := start, text := t,
      metadata := { paragraph_index := paragraphIndex,
                    page_number := pageIndex + 1,
                    section_title := title,
                    figure_identifiers := figs } } ::
      mkChunksFor pageIndex paragraphIndex title figs (start + 1) ts

/-- The per-page paragraph loop of `parse_financial_report`: threads the
paragraph index, the running section title (reset per page) and the global
chunk counter. -/
def paraLoop (pageIndex : Nat) :
    List (List Char) → Nat → Option (List Char) → Nat → List TextChunk
  | [], _, _, _ => []
  | p :: ps, paraIdx, sect, start =>
    let ptext := normaliseWhitespace p
    let sect' := if _looks_like_heading ptext then
        (if !ptext.isEmpty then some ptext else sect)
      else sect
    let title := _derive_section_title ptext pageIndex sect'
    let figs := _extract_figure_identifiers ptext
    let cs := mkChunksFor pageIndex paraIdx title figs start
      (_split_into_chunks ptext CHUNK_SIZE_WORDS CHUNK_OVERLAP_WORDS)
    cs ++ paraLoop pageIndex ps (paraIdx + 1) sect' (start + cs.length)

/-- All text chunks one page contributes, given the incoming global chunk
counter value. -/
def pageChunks (cfg : ReaderConfig) (pg : ParsedPage) (start : Nat) :
    List TextChunk :=
  paraLoop pg.index (group_paragraphs pg.elements cfg) 0 none start

/-- The page loop of `parse_financial_report`, threading the global counter. -/
def docChunksFrom (cfg : ReaderConfig) : List ParsedPage → Nat → List TextChunk
  | [], _ => []
  | pg :: pgs, start =>
    let cs := pageChunks cfg pg start
    cs ++ docChunksFrom cfg pgs (start + cs.length)

/-- The document-level `text_chunks` list produced by
`parse_financial_report` for a given list of parsed pages (the counter
`next_chunk_index` starts at 0). -/
def document_text_chunks (cfg : ReaderConfig) (pages : List ParsedPage) :
    List TextChunk :=
  docChunksFrom cfg pages 0

/-! ## Retrieval engine (`src/query.py`) -/

/-- Model of `query._STOPWORDS`. -/
def STOPWORDS : List (List Char) :=
  ["a", "an", "and", "are", "as", "at", "be", "but", "by", "for", "from",
   "has", "have", "in", "is", "it", "of", "on", "or", "that", "the", "to",
   "was", "were", "will", "with"].map String.toList

/-- Model of `query._normalise_tokens(text)`: lowercase, take maximal `\w+` runs,
drop stopwords. -/
def _normalise_tokens (text : List Char) : List (List Char) :=
  (runs isWordChar (text.map Char.toLower)).filter
    (fun t => !STOPWORDS.contains t)

/-- The token set `set(_normalise_tokens(text))` of a chunk or question. -/
def tokenSet (text : List Char) : Finset (List Char) :=
  (_normalise_tokens text).toFinset

/-- The comparison realised by `scored.sort(key=lambda m: m.score,
reverse=True)`: descending scores; the sort is stable. -/
def scoreDescLE (a b : ChunkMatch) : Bool := decide (b.score ≤ a.score)

/-- Model of `TextQueryEngine.retrieve(question, top_k)` over the index built from
`chunks` by `_build_index`.  `idf` abstracts the engine's `_idf` table
(whose values are floating-point logarithms); every query token that
intersects a chunk's token set is present in the table, so the `get`
default never fires. -/
def retrieve (idf : List Char → ℚ) (chunks : List TextChunk)
    (question : List Char) (top_k : Nat) : List ChunkMatch :=
  let token_sets := chunks.map fun c => tokenSet c.text
  let query_tokens := tokenSet question
  if query_tokens = ∅ then []
  else
    let scored := (chunks.zip token_sets).filterMap fun p =>
      let overlap := p.2 ∩ query_tokens
      if overlap = ∅ then none else some ⟨p.1, overlap.sum idf⟩
    (scored.mergeSort scoreDescLE).take top_k

/-- The spec's description of the match list (§4.6): the chunks whose token
set intersects the query tokens, in original chunk order, each scored as the
sum of idf over the intersecting tokens. -/
def specMatches (idf : List Char → ℚ) (chunks : List TextChunk)
    (qts : Finset (List Char)) : List ChunkMatch :=
  (chunks.filter fun c => decide (tokenSet c.text ∩ qts ≠ ∅)).map
    fun c => ⟨c, (tokenSet c.text ∩ qts).sum idf⟩

/-! ## Lemmas about word splitting and joining -/

theorem runsAux_append_word (keep : Char → Bool) (w : List Char)
    (hw : ∀ c ∈ w, keep c = true) :
    ∀ (rest acc : List Char),
      runsAux keep (w ++ rest) acc = runsAux keep rest (w.reverse ++ acc) := by
  induction w with
  | nil => intro rest acc; simp
  | cons c w ih =>
    intro rest acc
    have hc : keep c = true := hw c (List.mem_cons_self c w)
    have hw' : ∀ c ∈ w, keep c = true := fun x hx => hw x (List.mem_cons_of_mem c hx)
    simp only [List.cons_append, runsAux, hc, if_true]
    rw [List.reverse_cons, List.append_assoc, List.singleton_append]
    exact ih hw' rest (c :: acc)

theorem runsAux_sep (keep : Char → Bool) (c : Char) (hc : keep c = false)
    (rest acc : List Char) (hacc : acc ≠ []) :
    runsAux keep (c :: rest) acc = acc.reverse :: runsAux keep rest [] := by
  simp only [runsAux, hc]
  rw [if_neg (by simp [hacc]), if_neg (by simp [hacc])]

theorem runsAux_nil_of_ne (keep : Char → Bool) (acc : List Char) (hacc : acc ≠ []) :
    runsAux keep [] acc = [acc.reverse] := by
  simp only [runsAux]
  rw [if_neg (by simp [hacc])]

/-- Every run produced by `runsAux` is non-empty and consists of kept
characters, provided the accumulator does. -/
theorem runsAux_good (keep : Char → Bool) :
    ∀ (cs acc : List Char), (∀ c ∈ acc, keep c = true) →
      ∀ w ∈ runsAux keep cs acc, w ≠ [] ∧ ∀ c ∈ w, keep c = true := by
  intro cs
  induction cs with
  | nil =>
    intro acc hacc w hw
    simp only [runsAux] at hw
    by_cases h : acc.isEmpty
    · simp [h] at hw
    · rw [if_neg h] at hw
      rw [List.mem_singleton] at hw
      subst hw
      refine ⟨?_, fun c hc => hacc c (List.mem_reverse.mp hc)⟩
      simpa [List.isEmpty_iff] using h
  | cons c cs ih =>
    intro acc hacc w hw
    simp only [runsAux] at hw
    by_cases hk : keep c = true
    · rw [if_pos hk] at hw
      refine ih (c :: acc) ?_ w hw
      intro x hx
      rcases List.mem_cons.mp hx with h | h
      · exact h ▸ hk
      · exact hacc x h
    · rw [if_neg hk] at hw
      by_cases he : acc.isEmpty
      · rw [if_pos he] at hw
        exact ih [] (by simp) w hw
      · rw [if_neg he] at hw
        rcases List.mem_cons.mp hw with h | h
        · subst h
          refine ⟨?_, fun x hx => hacc x (List.mem_reverse.mp hx)⟩
          simpa [List.isEmpty_iff] using he
        · exact ih [] (by simp) w h

/-- The words of a paragraph are non-empty and whitespace-free. -/
theorem wordsOf_good (cs : List Char) :
    ∀ w ∈ wordsOf cs, w ≠ [] ∧ ∀ c ∈ w, isSpc c = false := by
  intro w hw
  have := runsAux_good (fun c => !isSpc c) cs [] (by simp) w hw
  exact ⟨this.1, fun c hc => by simpa using this.2 c hc⟩

/-- Round trip: splitting a single-space join of non-empty, whitespace-free
words recovers exactly those words. -/
theorem wordsOf_joinWords :
    ∀ (ws : List (List Char)),
      (∀ w ∈ ws, w ≠ [] ∧ ∀ c ∈ w, isSpc c = false) →
      wordsOf (joinWords ws) = ws := by
  intro ws
  induction ws with
  | nil => intro _; rfl
  | cons w ws ih =>
    intro h
    have hw := h w (List.mem_cons_self w ws)
    have hkeep : ∀ c ∈ w, (fun c => !isSpc c) c = true := by
      intro c hc; simp [ (hw.2 c hc) ]
    cases ws with
    | nil =>
      show runsAux (fun c => !isSpc c) (joinWords [w]) [] = [w]
      have : joinWords [w] = w ++ [] := by simp [joinWords]
      rw [this, runsAux_append_word _ w hkeep [] []]
      rw [runsAux_nil_of_ne _ _ (by simp [hw.1])]
      simp
    | cons w' ws' =>
      have hrest : ∀ x ∈ w' :: ws', x ≠ [] ∧ ∀ c ∈ x, isSpc c = false :=
        fun x hx => h x (List.mem_cons_of_mem w hx)
      show runsAux (fun c => !isSpc c) (joinWords (w :: w' :: ws')) [] = w :: w' :: ws'
      have hj : joinWords (w :: w' :: ws') = w ++ ' ' :: joinWords (w' :: ws') := rfl
      rw [hj, runsAux_append_word _ w hkeep _ []]
      rw [runsAux_sep _ ' ' (by simp [isSpc]) _ _ (by simp [hw.1])]
      rw [List.append_nil, List.reverse_reverse]
      exact congrArg (w :: ·) (ih hrest)

/-! ## Lemmas about the chunking loop -/

/-- The loop `chunkLoop` ignores the word list when the fuel is positive and the list
is empty. -/
theorem chunkLoop_nil (size step : Nat) : ∀ fuel, chunkLoop size step fuel [] = [] := by
  intro fuel; cases fuel <;> rfl

/-- The fuel of `chunkLoop` is irrelevant once it reaches the word count:
with a positive step the loop runs at most `length` iterations.  This is the
termination argument for the `while start < total` loop. -/
theorem chunkLoop_fuel (size step : Nat) (hstep : 1 ≤ step) :
    ∀ (f₁ f₂ : Nat) (rest : List (List Char)),
      rest.length ≤ f₁ → rest.length ≤ f₂ →
      chunkLoop size step f₁ rest = chunkLoop size step f₂ rest := by
  intro f₁
  induction f₁ with
  | zero =>
    intro f₂ rest h₁ _
    have : rest = [] := List.length_eq_zero.mp (Nat.le_zero.mp h₁)
    subst this
    rw [chunkLoop_nil, chunkLoop_nil]
  | succ f₁ ih =>
    intro f₂ rest h₁ h₂
    cases rest with
    | nil => rw [chunkLoop_nil, chunkLoop_nil]
    | cons w ws =>
      cases f₂ with
      | zero => simp at h₂
      | succ f₂ =>
        show chunkLoop size step (f₁ + 1) (w :: ws) = chunkLoop size step (f₂ + 1) (w :: ws)
        simp only [chunkLoop]
        congr 2
        by_cases hle : (w :: ws).length ≤ size
        · rw [if_pos hle, if_pos hle]
        · rw [if_neg hle, if_neg hle]
          apply ih
          · have := List.length_drop step (w :: ws)
            simp only [this]
            omega
          · have := List.length_drop step (w :: ws)
            simp only [this]
            omega

/-- When the overlap is zero the loop walks disjoint windows: mapping each
emitted chunk back to its words and concatenating recovers the word list. -/
theorem chunkLoop_partition (size : Nat) (hsize : 1 ≤ size) :
    ∀ (fuel : Nat) (rest : List (List Char)),
      rest.length ≤ fuel →
      (∀ w ∈ rest, w ≠ [] ∧ ∀ c ∈ w, isSpc c = false) →
      ((chunkLoop size size fuel rest).map wordsOf).flatten = rest := by
  intro fuel
  induction fuel with
  | zero =>
    intro rest h₁ _
    have : rest = [] := List.length_eq_zero.mp (Nat.le_zero.mp h₁)
    subst this; rfl
  | succ fuel ih =>
    intro rest h₁ hgood
    cases rest with
    | nil => rfl
    | cons w ws =>
      simp only [chunkLoop]
      have htake_ne : ((w :: ws).take size).isEmpty = false := by
        cases size with
        | zero => omega
        | succ n => simp [List.take_succ_cons]
      rw [if_neg (by simp [htake_ne])]
      have hgood_take : ∀ x ∈ (w :: ws).take size, x ≠ [] ∧ ∀ c ∈ x, isSpc c = false :=
        fun x hx => hgood x (List.take_subset size (w :: ws) hx)
      have hround : wordsOf (joinWords ((w :: ws).take size)) = (w :: ws).take size :=
        wordsOf_joinWords _ hgood_take
      by_cases hle : (w :: ws).length ≤ size
      · rw [if_pos hle]
        simp only [List.map_cons, List.map_nil, List.flatten_cons, List.flatten_nil,
          hround, List.append_nil]
        exact List.take_of_length_le hle
      · rw [if_neg hle]
        simp only [List.map_cons, List.flatten_cons, hround]
        rw [ih ((w :: ws).drop size)
            (by simp only [List.length_drop]; omega)
            (fun x hx => hgood x (List.drop_subset size (w :: ws) hx))]
        exact List.take_append_drop size (w :: ws)

/-- The clamped window size `max(1, chunk_size_words)` of `_split_into_chunks`,
as a natural number. -/
def effSize (c : Int) : Nat := (max 1 c).toNat

/-- The clamped sliding step `max(1, size - overlap)` of `_split_into_chunks`,
as a natural number. -/
def effStep (c o : Int) : Nat :=
  (max 1 (max 1 c - max 0 (min o (max 1 c - 1)))).toNat

/-- Unfolding: `_split_into_chunks` is the clamped loop run with fuel equal to the word
count. -/
theorem split_into_chunks_eq (p : List Char) (c o : Int) :
    _split_into_chunks p c o =
      chunkLoop (effSize c) (effStep c o) (wordsOf p).length (wordsOf p) := by
  unfold _split_into_chunks effSize effStep
  cases h : wordsOf p with
  | nil => simp [h, chunkLoop_nil]
  | cons w ws => simp [h]

theorem effSize_pos (c : Int) : 1 ≤ effSize c := by
  unfold effSize; omega

theorem effStep_pos (c o : Int) : 1 ≤ effStep c o := by
  unfold effStep; omega

/-- C10: `_split_into_chunks` is total for every integer configuration,
including zero and negative sizes/overlaps: the effective window size and
step are clamped to at least 1; the `while` loop is fuel-insensitive beyond
the word count (it terminates within that many iterations); a paragraph with
at least one word yields at least one chunk and an empty or whitespace-only
paragraph (no words) yields the empty list. -/
theorem split_into_chunks_total (c o : Int) (p : List Char) :
    (1 ≤ effSize c ∧ 1 ≤ effStep c o)
    ∧ (_split_into_chunks p c o = [] ↔ wordsOf p = [])
    ∧ (∀ fuel, (wordsOf p).length ≤ fuel →
        chunkLoop (effSize c) (effStep c o) fuel (wordsOf p) =
          _split_into_chunks p c o) := by
  refine ⟨⟨effSize_pos c, effStep_pos c o⟩, ?_, ?_⟩
  · rw [split_into_chunks_eq]
    cases h : wordsOf p with
    | nil => simp [chunkLoop_nil]
    | cons w ws =>
      simp only [List.length_cons]
      constructor
      · intro habs
        obtain ⟨k, hk⟩ : ∃ k, effSize c = k + 1 := by
          have := effSize_pos c; exact ⟨effSize c - 1, by omega⟩
        rw [show ws.length + 1 = ws.length + 1 from rfl] at habs
        simp only [chunkLoop, hk, List.take_succ_cons, List.isEmpty_cons,
          Bool.false_eq_true, if_false] at habs
        exact (List.cons_ne_nil _ _ habs).elim
      · intro habs; cases habs
  · intro fuel hfuel
    rw [split_into_chunks_eq]
    exact chunkLoop_fuel _ _ (effStep_pos c o) fuel (wordsOf p).length
      (wordsOf p) hfuel le_rfl

/-- Witness for C10 at a concrete paragraph and configuration. -/
theorem split_into_chunks_total_witness :
    ((1 ≤ effSize 2 ∧ 1 ≤ effStep 2 0)
    ∧ (_split_into_chunks "a b c d e".toList 2 0 = [] ↔
        wordsOf "a b c d e".toList = [])
    ∧ chunkLoop (effSize 2) (effStep 2 0) 7 (wordsOf "a b c d e".toList) =
        _split_into_chunks "a b c d e".toList 2 0) :=
  ⟨(split_into_chunks_total 2 0 "a b c d e".toList).1,
   (split_into_chunks_total 2 0 "a b c d e".toList).2.1,
   (split_into_chunks_total 2 0 "a b c d e".toList).2.2 7 (by decide)⟩

/-- C6: chunking `"a b c d e"` with `chunk_size_words=2, overlap_words=1`
yields exactly `["a b", "b c", "c d", "d e"]`. -/
theorem chunk_example_overlap :
    _split_into_chunks "a b c d e".toList 2 1 =
      ["a b", "b c", "c d", "d e"].map String.toList := by
  decide

/-- C7: with `overlap_words = 0` and any chunk size of at least 1, the words
of the emitted chunks, concatenated in emission order, are exactly the
paragraph's word sequence — no gaps and no repeats. -/
theorem chunks_partition_words (p : List Char) (c : Int) (hc : 1 ≤ c) :
    ((_split_into_chunks p c 0).map wordsOf).flatten = wordsOf p := by
  rw [split_into_chunks_eq]
  have hstep : effStep c 0 = effSize c := by
    unfold effStep effSize; omega
  rw [hstep]
  exact chunkLoop_partition (effSize c) (effSize_pos c) _ _ le_rfl (wordsOf_good p)

/-- Witness for C7 at a concrete paragraph and chunk size. -/
theorem chunks_partition_words_witness :
    (1 : Int) ≤ 2 ∧
      ((_split_into_chunks "a b c d e".toList 2 0).map wordsOf).flatten =
        wordsOf "a b c d e".toList :=
  ⟨by decide, chunks_partition_words "a b c d e".toList 2 (by decide)⟩

/-! ## C1: table detection can raise on absent text -/

/-- C1 (failing input): on a page holding one element whose text matches the
numeric pattern and one element whose text is absent (`None`), the inner
comprehension of `detect_tables` evaluates `text in e.text` against the
`None` text and raises `TypeError` — the call does not return normally, so
elements with absent text are not tolerated as the claim states. -/
theorem detect_tables_raises_on_none_text :
    detect_tables
      [⟨0, 1, 10, 2, some "123.456".toList, false⟩,
       ⟨0, 2, 10, 3, none, false⟩] = .error .typeError := rfl

/-! ## C2: which elements does paragraph grouping drop? -/

theorem keepElem_false_of_falsy (e : ParsedElement)
    (h : e.text = none ∨ e.text = some []) : keepElem e = false := by
  rcases h with h | h <;> simp [keepElem, h]

/-- A page with a single kept element yields exactly one paragraph: that
element's text, verbatim. -/
theorem group_paragraphs_singleton (e : ParsedElement) (cfg : ReaderConfig)
    (h : keepElem e = true) : group_paragraphs [e] cfg = [elemText e] := by
  unfold group_paragraphs
  rw [show List.filter keepElem [e] = [e] by simp [h], List.mergeSort_singleton]
  rfl

/-- C2 (counterexample): `group_paragraphs` keeps an element whose text is
the single space `" "` — Python truthiness only drops `None` and the empty
string — so the whitespace-only text reappears verbatim as a returned
paragraph, contradicting the claim that such elements contribute nothing. -/
theorem group_paragraphs_keeps_whitespace_only :
    (some " ".toList : Option (List Char)) = some [' ']
    ∧ (∀ c ∈ [' '], isSpc c = true)
    ∧ group_paragraphs [⟨0, 0, 1, 1, some " ".toList, false⟩] ⟨6, 14, 10, 2, 2⟩ =
        [[' ']] := by
  refine ⟨rfl, by decide, ?_⟩
  rw [group_paragraphs_singleton _ _ (by decide)]
  rfl

/-- C2 (amended): `group_paragraphs` filters out every element whose text is
absent (`None`) or empty before grouping; removing such an element anywhere
in the input leaves the returned paragraphs unchanged.  (Whitespace-only
texts, by contrast, are kept — see the counterexample.) -/
theorem group_paragraphs_ignores_falsy_text (l₁ l₂ : List ParsedElement)
    (e : ParsedElement) (cfg : ReaderConfig)
    (h : e.text = none ∨ e.text = some []) :
    group_paragraphs (l₁ ++ e :: l₂) cfg = group_paragraphs (l₁ ++ l₂) cfg := by
  unfold group_paragraphs
  rw [List.filter_append, List.filter_append, List.filter_cons,
    keepElem_false_of_falsy e h]
  simp

/-- Witness for amended C2 at a concrete input. -/
theorem group_paragraphs_ignores_falsy_text_witness :
    group_paragraphs
        [⟨0, 30, 1, 31, some "top".toList, false⟩,
         ⟨0, 20, 1, 21, none, false⟩,
         ⟨0, 10, 1, 11, some "bottom".toList, false⟩] ⟨6, 14, 10, 2, 2⟩ =
      group_paragraphs
        [⟨0, 30, 1, 31, some "top".toList, false⟩,
         ⟨0, 10, 1, 11, some "bottom".toList, false⟩] ⟨6, 14, 10, 2, 2⟩ :=
  group_paragraphs_ignores_falsy_text
    [⟨0, 30, 1, 31, some "top".toList, false⟩]
    [⟨0, 10, 1, 11, some "bottom".toList, false⟩]
    ⟨0, 20, 1, 21, none, false⟩ ⟨6, 14, 10, 2, 2⟩ (Or.inl rfl)

/-! ## C3: permutation (in)variance of paragraph grouping -/

theorem byDescY0_trans (a b c : ParsedElement)
    (h₁ : byDescY0 a b) (h₂ : byDescY0 b c) : byDescY0 a c := by
  simp only [byDescY0, decide_eq_true_eq] at h₁ h₂ ⊢
  exact le_trans h₂ h₁

theorem byDescY0_total (a b : ParsedElement) : byDescY0 a b || byDescY0 b a := by
  simp only [byDescY0, Bool.or_eq_true, decide_eq_true_eq]
  exact le_total b.y0 a.y0

/-- C3 (counterexample): two elements sharing the same `y0` but holding
different texts are joined in input order by the stable sort, so swapping
them — a permutation of the input — changes the returned paragraph string. -/
theorem group_paragraphs_not_permutation_invariant :
    ([⟨0, 0, 1, 1, some ['a'], false⟩, ⟨0, 0, 1, 1, some ['b'], false⟩] :
        List ParsedElement).Perm
      [⟨0, 0, 1, 1, some ['b'], false⟩, ⟨0, 0, 1, 1, some ['a'], false⟩]
    ∧ group_paragraphs
        [⟨0, 0, 1, 1, some ['a'], false⟩, ⟨0, 0, 1, 1, some ['b'], false⟩]
        ⟨6, 14, 10, 2, 2⟩ ≠
      group_paragraphs
        [⟨0, 0, 1, 1, some ['b'], false⟩, ⟨0, 0, 1, 1, some ['a'], false⟩]
        ⟨6, 14, 10, 2, 2⟩ := by
  constructor
  · exact List.Perm.swap _ _ []
  · have e₁ : group_paragraphs
        [⟨0, 0, 1, 1, some ['a'], false⟩, ⟨0, 0, 1, 1, some ['b'], false⟩]
        ⟨6, 14, 10, 2, 2⟩ = [['a', ' ', 'b']] := by
      unfold group_paragraphs
      rw [show List.filter keepElem
          [⟨0, 0, 1, 1, some ['a'], false⟩, ⟨0, 0, 1, 1, some ['b'], false⟩] =
          [⟨0, 0, 1, 1, some ['a'], false⟩, ⟨0, 0, 1, 1, some ['b'], false⟩]
        from rfl]
      rw [List.mergeSort_of_sorted (by decide)]
      rfl
    have e₂ : group_paragraphs
        [⟨0, 0, 1, 1, some ['b'], false⟩, ⟨0, 0, 1, 1, some ['a'], false⟩]
        ⟨6, 14, 10, 2, 2⟩ = [['b', ' ', 'a']] := by
      unfold group_paragraphs
      rw [show List.filter keepElem
          [⟨0, 0, 1, 1, some ['b'], false⟩, ⟨0, 0, 1, 1, some ['a'], false⟩] =
          [⟨0, 0, 1, 1, some ['b'], false⟩, ⟨0, 0, 1, 1, some ['a'], false⟩]
        from rfl]
      rw [List.mergeSort_of_sorted (by decide)]
      rfl
    rw [e₁, e₂]
    simp

/-- C3 (amended): `group_paragraphs` is a pure function, so re-running on
equal input is trivially byte-identical; and the output is invariant under
permutation of the input elements whenever the elements carry pairwise
distinct `y0` values (ties in `y0` are broken by input order by the stable
sort, see the counterexample). -/
theorem group_paragraphs_perm_invariant (l₁ l₂ : List ParsedElement)
    (cfg : ReaderConfig) (hperm : l₁.Perm l₂)
    (hdist : l₁.Pairwise fun a b => a.y0 ≠ b.y0) :
    group_paragraphs l₁ cfg = group_paragraphs l₂ cfg := by
  unfold group_paragraphs
  have hsymm : ∀ {x y : ParsedElement}, x.y0 ≠ y.y0 → y.y0 ≠ x.y0 :=
    fun h => h.symm
  have hdist₂ : l₂.Pairwise (fun a b => a.y0 ≠ b.y0) :=
    (hperm.pairwise_iff hsymm).mp hdist
  have key : ∀ l : List ParsedElement, l.Pairwise (fun a b => a.y0 ≠ b.y0) →
      ((l.filter keepElem).mergeSort byDescY0).Pairwise
        (fun a b => b.y0 < a.y0) := by
    intro l hl
    have h₁ : ((l.filter keepElem).mergeSort byDescY0).Pairwise
        (fun a b => byDescY0 a b = true) :=
      List.sorted_mergeSort byDescY0_trans byDescY0_total (l.filter keepElem)
    have hfil : (l.filter keepElem).Pairwise (fun a b => a.y0 ≠ b.y0) :=
      List.Pairwise.sublist (List.filter_sublist l) hl
    have h₂ : ((l.filter keepElem).mergeSort byDescY0).Pairwise
        (fun a b => a.y0 ≠ b.y0) :=
      ((List.mergeSort_perm (l.filter keepElem) byDescY0).pairwise_iff
        hsymm).mpr hfil
    refine (h₁.and h₂).imp ?_
    intro a b hab
    have hle : b.y0 ≤ a.y0 := by
      have := hab.1
      simpa [byDescY0] using this
    exact lt_of_le_of_ne hle (hsymm hab.2)
  have s₁ := key l₁ hdist
  have s₂ := key l₂ hdist₂
  have hp : ((l₁.filter keepElem).mergeSort byDescY0).Perm
      ((l₂.filter keepElem).mergeSort byDescY0) :=
    (List.mergeSort_perm _ _).trans
      ((hperm.filter keepElem).trans (List.mergeSort_perm _ _).symm)
  haveI : IsAntisymm ParsedElement (fun a b => b.y0 < a.y0) :=
    ⟨fun a b h₁ h₂ => absurd h₂ (not_lt.mpr h₁.le)⟩
  have h : (l₁.filter keepElem).mergeSort byDescY0 =
      (l₂.filter keepElem).mergeSort byDescY0 :=
    List.eq_of_perm_of_sorted hp s₁ s₂
  rw [h]

/-- Witness for amended C3 at a concrete permutation with distinct `y0`s. -/
theorem group_paragraphs_perm_invariant_witness :
    group_paragraphs
        [⟨0, 2, 1, 3, some ['a'], false⟩, ⟨0, 0, 1, 1, some ['b'], false⟩]
        ⟨6, 14, 10, 2, 2⟩ =
      group_paragraphs
        [⟨0, 0, 1, 1, some ['b'], false⟩, ⟨0, 2, 1, 3, some ['a'], false⟩]
        ⟨6, 14, 10, 2, 2⟩ :=
  group_paragraphs_perm_invariant _ _ _ (List.Perm.swap _ _ []) (by decide)

/-! ## C4: what detect_tables emits -/

/-- The table list described by the claim: one table per element whose text
contains a digit and matches the grouped-thousands pattern, placed at that
element's own `y0`. -/
def claimTables (elements : List ParsedElement) : List ParsedTable :=
  elements.filterMap fun e =>
    match e.text with
    | none => none
    | some t =>
      if containsDigit t && searchNumPat t then some (mkTable e.y0 t) else none

/-- The first element of the page whose text contains `t` as a substring —
the element whose `y0` the code actually uses. -/
def ownerElem (elements : List ParsedElement) (t : List Char) : ParsedElement :=
  match elements.filter (fun e => containsSub t (elemText e)) with
  | [] => ⟨0, 0, 0, 0, none, false⟩
  | e :: _ => e

theorem isPrefixOf_self : ∀ (t : List Char), t.isPrefixOf t = true := by
  intro t
  induction t with
  | nil => rfl
  | cons c cs ih => simp [List.isPrefixOf, ih]

theorem containsSub_self (t : List Char) : containsSub t t = true := by
  cases t with
  | nil => rfl
  | cons c cs =>
    show ((c :: cs).isPrefixOf (c :: cs) || containsSub (c :: cs) cs) = true
    rw [isPrefixOf_self]
    rfl

/-- When no text is absent and some element owns `t`, the indexing
comprehension returns the first element containing `t`. -/
theorem firstContaining_eq_owner (elements : List ParsedElement)
    (t : List Char) (H1 : ∀ e ∈ elements, e.text ≠ none)
    (hex : ∃ e ∈ elements, e.text = some t) :
    firstContaining t elements = .ok (ownerElem elements t) := by
  obtain ⟨e, he, ht⟩ := hex
  have hany : (elements.any fun x => x.text.isNone) = false := by
    rw [List.any_eq_false]
    intro x hx
    simp [Option.isNone_iff_eq_none, H1 x hx]
  have hmem : e ∈ elements.filter (fun x => containsSub t (elemText x)) := by
    refine List.mem_filter.mpr ⟨he, ?_⟩
    simp only [elemText, ht, Option.getD_some]
    exact containsSub_self t
  unfold firstContaining ownerElem
  rw [hany]
  simp only [Bool.false_eq_true, if_false]
  cases hfil : elements.filter (fun x => containsSub t (elemText x)) with
  | nil => rw [hfil] at hmem; cases hmem
  | cons e₁ rest => rfl

/-- Under the ownership hypothesis, the first containing element is the
matched element itself. -/
theorem ownerElem_eq (elements : List ParsedElement) (e : ParsedElement)
    (t : List Char)
    (H2 : ∀ e₁ ∈ elements, ∀ e₂ ∈ elements,
      searchNumPat (elemText e₂) = true →
      containsSub (elemText e₂) (elemText e₁) = true → e₁ = e₂)
    (he : e ∈ elements) (ht : e.text = some t)
    (hpat : searchNumPat t = true) : ownerElem elements t = e := by
  have hself : e ∈ elements.filter (fun x => containsSub t (elemText x)) := by
    refine List.mem_filter.mpr ⟨he, ?_⟩
    simp only [elemText, ht, Option.getD_some]
    exact containsSub_self t
  unfold ownerElem
  cases hfil : elements.filter (fun x => containsSub t (elemText x)) with
  | nil => rw [hfil] at hself; cases hself
  | cons e₁ rest =>
    have h₁ : e₁ ∈ elements.filter (fun x => containsSub t (elemText x)) := by
      rw [hfil]; exact List.mem_cons_self e₁ rest
    rcases List.mem_filter.mp h₁ with ⟨hmem₁, hcont₁⟩
    have hte : elemText e = t := by simp [elemText, ht]
    exact H2 e₁ hmem₁ e he (hte ▸ hpat) (hte ▸ hcont₁)

/-- The table-building fold of `detect_tables`, evaluated when every text
line is owned by some element and no text is absent. -/
theorem detect_tables_fold (elements : List ParsedElement)
    (H1 : ∀ e ∈ elements, e.text ≠ none) :
    ∀ (ts : List (List Char)) (acc : List ParsedTable),
      (∀ t ∈ ts, ∃ e ∈ elements, e.text = some t) →
      (ts.foldlM
        (fun acc t =>
          if searchNumPat t then do
            let e ← firstContaining t elements
            pure (acc ++ [mkTable e.y0 t])
          else pure acc)
        acc) =
      .ok (acc ++ ts.filterMap (fun t =>
        if searchNumPat t then some (mkTable (ownerElem elements t).y0 t)
        else none)) := by
  intro ts
  induction ts with
  | nil => intro acc _; rw [List.filterMap_nil, List.append_nil]; rfl
  | cons t ts ih =>
    intro acc hts
    rw [List.foldlM_cons]
    by_cases hpat : searchNumPat t = true
    · rw [if_pos hpat]
      rw [firstContaining_eq_owner elements t H1 (hts t (List.mem_cons_self t ts))]
      show (ts.foldlM _ (acc ++ [mkTable (ownerElem elements t).y0 t])) = _
      rw [ih _ (fun x hx => hts x (List.mem_cons_of_mem t hx))]
      simp [hpat]
    · rw [if_neg hpat]
      show (ts.foldlM _ acc) = _
      rw [ih _ (fun x hx => hts x (List.mem_cons_of_mem t hx))]
      simp [hpat]

/-- C4 (amended): when every element carries text and each matched text is
contained in no element other than its own (so the "first element whose text
contains the match" is the matched element itself), `detect_tables` returns
normally with exactly one table per element text that contains a digit and
matches `\d{3}[.,]\d{3}`, each spanning `x ∈ [0, 1000]` at the matched
element's `y0` band of height 15, holding a single row whose only cell is
the matched text. -/
theorem detect_tables_ok (elements : List ParsedElement)
    (H1 : ∀ e ∈ elements, e.text ≠ none)
    (H2 : ∀ e₁ ∈ elements, ∀ e₂ ∈ elements,
      searchNumPat (elemText e₂) = true →
      containsSub (elemText e₂) (elemText e₁) = true → e₁ = e₂) :
    detect_tables elements = .ok (claimTables elements) := by
  unfold detect_tables
  rw [detect_tables_fold elements H1 _ []]
  · rw [List.nil_append, List.filterMap_filterMap]
    unfold claimTables
    refine congrArg Except.ok ?_
    apply List.filterMap_congr
    intro e he
    cases hte : e.text with
    | none => rfl
    | some t =>
      simp only
      by_cases hd : (!t.isEmpty && containsDigit t) = true
      · rw [if_pos hd]
        show (if searchNumPat t then _ else _) = _
        by_cases hpat : searchNumPat t = true
        · rw [if_pos hpat, if_pos]
          · rw [ownerElem_eq elements e t H2 he hte hpat]
          · have hd' := hd
            rw [Bool.and_eq_true] at hd'
            simp [hd'.2, hpat]
        · rw [if_neg hpat, if_neg]
          intro hcl
          rw [Bool.and_eq_true] at hcl
          exact hpat hcl.2
      · rw [if_neg hd]
        rw [Option.none_bind]
        by_cases hdig : containsDigit t = true
        · have hemp : t.isEmpty = true := by
            rw [Bool.and_eq_true] at hd
            by_cases h : t.isEmpty = true
            · exact h
            · exact absurd ⟨by simp [h], hdig⟩ hd
          have : t = [] := List.isEmpty_iff.mp hemp
          subst this
          rw [if_neg]
          intro hcl
          rw [Bool.and_eq_true] at hcl
          exact absurd hcl.2 (by simp [searchNumPat])
        · rw [if_neg]
          intro hcl
          rw [Bool.and_eq_true] at hcl
          exact hdig hcl.1
  · intro t ht
    rcases List.mem_filterMap.mp ht with ⟨e, he, hfe⟩
    refine ⟨e, he, ?_⟩
    cases hte : e.text with
    | none => rw [hte] at hfe; cases hfe
    | some t' =>
      rw [hte] at hfe
      simp only at hfe
      by_cases hc : (!t'.isEmpty && containsDigit t') = true
      · rw [if_pos hc] at hfe
        injection hfe with h
        subst h
        rfl
      · rw [if_neg hc] at hfe
        cases hfe

/-- C4 (counterexample): the emitted table's `y0` comes from the *first*
element whose text contains the matched text as a substring, not from the
matched element.  Here `"111.222"` (owned by the element at `y0 = 50`) also
occurs inside the earlier element at `y0 = 5`, so its table is placed at 5,
while the claim predicts 50 (the `claimTables` description). -/
theorem detect_tables_y0_mismatch :
    detect_tables
        [⟨0, 5, 10, 6, some "x 111.222 x".toList, false⟩,
         ⟨0, 50, 10, 51, some "111.222".toList, false⟩] =
      .ok [mkTable 5 "x 111.222 x".toList, mkTable 5 "111.222".toList]
    ∧ claimTables
        [⟨0, 5, 10, 6, some "x 111.222 x".toList, false⟩,
         ⟨0, 50, 10, 51, some "111.222".toList, false⟩] =
      [mkTable 5 "x 111.222 x".toList, mkTable 50 "111.222".toList]
    ∧ (mkTable 5 "111.222".toList ≠ mkTable 50 "111.222".toList) :=
  ⟨rfl, rfl, by decide⟩

/-- Witness for amended C4: the spec's own example paragraph yields exactly
one table row containing that text, at the element's `y0`. -/
theorem detect_tables_ok_witness :
    detect_tables
        [⟨0, 100, 10, 101,
          some "Total assets increased to 123.456,78 in 2024.".toList, false⟩] =
      .ok [mkTable 100 "Total assets increased to 123.456,78 in 2024.".toList] := by
  rw [detect_tables_ok _ (by decide) (by decide)]
  rfl

/-! ## C8: the heading heuristic, as the spec words it -/

/-- The spec's heading condition (§4.3) over an already-normalised paragraph:
a single purely-numeric token, or at most 12 tokens, not ending in `.`, and
(ending in `:`, or an uppercase ratio of at least 0.6 among the alphabetic
characters — which presupposes there are some — or every token starting with
an uppercase character). -/
def claimHeading (text : List Char) : Prop :=
  ((wordsOf text).length = 1 ∧ pyIsDigit ((wordsOf text).headD []) = true)
  ∨ ((wordsOf text).length ≤ 12
     ∧ text.getLast? ≠ some '.'
     ∧ (text.getLast? = some ':'
        ∨ (0 < (text.filter Char.isAlpha).length
           ∧ 3 * (text.filter Char.isAlpha).length ≤
             5 * ((text.filter Char.isAlpha).filter Char.isUpper).length)
        ∨ ∀ w ∈ wordsOf text, firstCharUpper w = true))

/-- C8: for every paragraph that is non-empty after whitespace
normalisation, `_looks_like_heading` returns `true` exactly when the spec's
heading condition holds of the normalised text; in particular a paragraph of
more than 12 tokens is never a heading. -/
theorem looks_like_heading_iff (p : List Char)
    (h : normaliseWhitespace p ≠ []) :
    _looks_like_heading p = true ↔ claimHeading (normaliseWhitespace p) := by
  unfold _looks_like_heading claimHeading HEADING_MAX_WORDS
  have hne : (normaliseWhitespace p).isEmpty = false := by
    simpa [List.isEmpty_iff] using h
  rw [if_neg (by simp [hne])]
  by_cases hA : ((wordsOf (normaliseWhitespace p)).length == 1 &&
      pyIsDigit ((wordsOf (normaliseWhitespace p)).headD [])) = true
  · rw [if_pos hA]
    rw [Bool.and_eq_true] at hA
    simp only [beq_iff_eq] at hA
    exact ⟨fun _ => Or.inl ⟨hA.1, hA.2⟩, fun _ => rfl⟩
  · rw [if_neg hA]
    have hA' : ¬((wordsOf (normaliseWhitespace p)).length = 1 ∧
        pyIsDigit ((wordsOf (normaliseWhitespace p)).headD []) = true) := by
      rintro ⟨h1, h2⟩
      refine hA ?_
      rw [Bool.and_eq_true]
      exact ⟨beq_iff_eq.mpr h1, h2⟩
    by_cases h12 : (wordsOf (normaliseWhitespace p)).length > 12
    · rw [if_pos h12]
      constructor
      · intro habs; cases habs
      · rintro (hA2 | hB)
        · exact absurd hA2 hA'
        · omega
    · rw [if_neg h12]
      by_cases hdot : (normaliseWhitespace p).getLast? == some '.'
      · rw [if_pos hdot]
        rw [beq_iff_eq] at hdot
        constructor
        · intro habs; cases habs
        · rintro (hA2 | ⟨_, hnd, _⟩)
          · exact absurd hA2 hA'
          · exact absurd hdot hnd
      · rw [if_neg hdot]
        rw [beq_iff_eq] at hdot
        by_cases hcol : (normaliseWhitespace p).getLast? == some ':'
        · rw [if_pos hcol]
          rw [beq_iff_eq] at hcol
          exact ⟨fun _ => Or.inr ⟨by omega, hdot, Or.inl hcol⟩, fun _ => rfl⟩
        · rw [if_neg hcol]
          rw [beq_iff_eq] at hcol
          by_cases hR : (!((normaliseWhitespace p).filter Char.isAlpha).isEmpty &&
              decide (3 * ((normaliseWhitespace p).filter Char.isAlpha).length ≤
                5 * (((normaliseWhitespace p).filter Char.isAlpha).filter
                  Char.isUpper).length)) = true
          · rw [if_pos hR]
            rw [Bool.and_eq_true] at hR
            have hnonempty : 0 < ((normaliseWhitespace p).filter Char.isAlpha).length := by
              rcases hR with ⟨h1, _⟩
              simp only [Bool.not_eq_true'] at h1
              refine List.length_pos.mpr ?_
              intro he
              rw [he] at h1
              simp at h1
            have hineq := of_decide_eq_true hR.2
            exact ⟨fun _ => Or.inr ⟨by omega, hdot,
              Or.inr (Or.inl ⟨hnonempty, hineq⟩)⟩, fun _ => rfl⟩
          · rw [if_neg hR]
            constructor
            · intro hT
              rw [beq_iff_eq] at hT
              exact Or.inr ⟨by omega, hdot, Or.inr (Or.inr
                (List.countP_eq_length.mp hT))⟩
            · rintro (hA2 | ⟨_, _, (hc | ⟨hpos, hineq⟩ | hT)⟩)
              · exact absurd hA2 hA'
              · exact absurd hc hcol
              · refine absurd ?_ hR
                rw [Bool.and_eq_true]
                refine ⟨?_, decide_eq_true hineq⟩
                have hne' : ((normaliseWhitespace p).filter Char.isAlpha) ≠ [] :=
                  List.length_pos.mp hpos
                simp [List.isEmpty_iff, hne']
              · rw [beq_iff_eq]
                exact List.countP_eq_length.mpr hT

/-- Witness for C8 at the spec's own example heading. -/
theorem looks_like_heading_iff_witness :
    normaliseWhitespace "FINANCIAL HIGHLIGHTS".toList ≠ []
    ∧ (_looks_like_heading "FINANCIAL HIGHLIGHTS".toList = true ↔
        claimHeading (normaliseWhitespace "FINANCIAL HIGHLIGHTS".toList)) :=
  ⟨by decide, looks_like_heading_iff "FINANCIAL HIGHLIGHTS".toList (by decide)⟩

/-! ## C9: global chunk indices -/

theorem mkChunksFor_length (pI aI : Nat) (title : List Char)
    (figs : List (List Char)) :
    ∀ (ts : List (List Char)) (start : Nat),
      (mkChunksFor pI aI title figs start ts).length = ts.length := by
  intro ts
  induction ts with
  | nil => intro start; rfl
  | cons t ts ih => intro start; simp [mkChunksFor, ih]

theorem mkChunksFor_map_index (pI aI : Nat) (title : List Char)
    (figs : List (List Char)) :
    ∀ (ts : List (List Char)) (start : Nat),
      (mkChunksFor pI aI title figs start ts).map (fun c => c.chunk_index) =
        List.range' start ts.length := by
  intro ts
  induction ts with
  | nil => intro start; rfl
  | cons t ts ih =>
    intro start
    rw [List.length_cons, List.range'_succ]
    simp only [mkChunksFor, List.map_cons]
    rw [ih (start + 1)]

theorem mkChunksFor_page_index (pI aI : Nat) (title : List Char)
    (figs : List (List Char)) :
    ∀ (ts : List (List Char)) (start : Nat) (c : TextChunk),
      c ∈ mkChunksFor pI aI title figs start ts → c.page_index = pI := by
  intro ts
  induction ts with
  | nil => intro start c hc; cases hc
  | cons t ts ih =>
    intro start c hc
    rcases List.mem_cons.mp hc with h | h
    · subst h; rfl
    · exact ih (start + 1) c h

theorem paraLoop_map_index (pI : Nat) :
    ∀ (ps : List (List Char)) (aI : Nat) (sect : Option (List Char))
      (start : Nat),
      (paraLoop pI ps aI sect start).map (fun c => c.chunk_index) =
        List.range' start (paraLoop pI ps aI sect start).length := by
  intro ps
  induction ps with
  | nil => intro aI sect start; rfl
  | cons p ps ih =>
    intro aI sect start
    simp only [paraLoop]
    rw [List.map_append, mkChunksFor_map_index, ih]
    simp only [List.length_append, mkChunksFor_length]
    rw [List.range'_append_1]
    congr 1
    omega

theorem paraLoop_page_index (pI : Nat) :
    ∀ (ps : List (List Char)) (aI : Nat) (sect : Option (List Char))
      (start : Nat) (c : TextChunk),
      c ∈ paraLoop pI ps aI sect start → c.page_index = pI := by
  intro ps
  induction ps with
  | nil => intro aI sect start c hc; cases hc
  | cons p ps ih =>
    intro aI sect start c hc
    rcases List.mem_append.mp hc with h | h
    · exact mkChunksFor_page_index _ _ _ _ _ _ c h
    · exact ih _ _ _ c h

theorem docChunksFrom_map_index (cfg : ReaderConfig) :
    ∀ (pgs : List ParsedPage) (start : Nat),
      (docChunksFrom cfg pgs start).map (fun c => c.chunk_index) =
        List.range' start (docChunksFrom cfg pgs start).length := by
  intro pgs
  induction pgs with
  | nil => intro start; rfl
  | cons pg pgs ih =>
    intro start
    simp only [docChunksFrom, pageChunks]
    rw [List.map_append, paraLoop_map_index, ih]
    simp only [List.length_append]
    rw [List.range'_append_1]
    congr 1
    omega

/-- C9: over an entire parsed document, the emitted `text_chunks` carry
`chunk_index` values `0 .. N-1` in exactly emission order (page, then
paragraph, then window), hence strictly increasing and globally unique; and
every chunk emitted while processing a page carries that page's index as its
`page_index`. -/
theorem document_chunks_indices (cfg : ReaderConfig) (pages : List ParsedPage) :
    (document_text_chunks cfg pages).map (fun c => c.chunk_index) =
      List.range (document_text_chunks cfg pages).length
    ∧ ∀ (pg : ParsedPage) (start : Nat), ∀ c ∈ pageChunks cfg pg start,
        c.page_index = pg.index := by
  constructor
  · rw [List.range_eq_range']
    exact docChunksFrom_map_index cfg pages 0
  · intro pg start c hc
    exact paraLoop_page_index pg.index _ 0 none start c hc

/-- Witness for C9 on a concrete one-page document. -/
theorem document_chunks_indices_witness :
    (document_text_chunks ⟨6, 14, 10, 2, 2⟩
        [⟨3, 100, 100, [⟨0, 10, 50, 20, some "hello world".toList, false⟩]⟩]).map
      (fun c => c.chunk_index) =
      List.range (document_text_chunks ⟨6, 14, 10, 2, 2⟩
        [⟨3, 100, 100, [⟨0, 10, 50, 20, some "hello world".toList, false⟩]⟩]).length
    ∧ (⟨3, 0, "hello world".toList, ⟨0, 4, "hello world".toList, []⟩⟩ :
        TextChunk).page_index =
      (⟨3, 100, 100, [⟨0, 10, 50, 20, some "hello world".toList, false⟩]⟩ :
        ParsedPage).index := by
  have hpc : pageChunks ⟨6, 14, 10, 2, 2⟩
      ⟨3, 100, 100, [⟨0, 10, 50, 20, some "hello world".toList, false⟩]⟩ 0 =
      [⟨3, 0, "hello world".toList, ⟨0, 4, "hello world".toList, []⟩⟩] := by
    unfold pageChunks
    rw [group_paragraphs_singleton _ _ (by decide)]
    rfl
  refine ⟨(document_chunks_indices ⟨6, 14, 10, 2, 2⟩ _).1, ?_⟩
  refine (document_chunks_indices ⟨6, 14, 10, 2, 2⟩
    [⟨3, 100, 100, [⟨0, 10, 50, 20, some "hello world".toList, false⟩]⟩]).2
    _ 0 _ ?_
  rw [hpc]
  exact List.mem_singleton.mpr rfl

/-! ## C5: retrieval -/

theorem zip_map_filterMap {α β γ : Type} (f : α → β) (g : α × β → Option γ) :
    ∀ l : List α, (l.zip (l.map f)).filterMap g =
      l.filterMap (fun a => g (a, f a)) := by
  intro l
  induction l with
  | nil => rfl
  | cons a l ih =>
    simp only [List.map_cons, List.zip_cons_cons, List.filterMap_cons]
    cases g (a, f a) with
    | none => exact ih
    | some c => rw [ih]

/-- The scored list built inside `retrieve` is the spec's match list. -/
theorem scored_eq_specMatches (idf : List Char → ℚ) (chunks : List TextChunk)
    (qts : Finset (List Char)) :
    ((chunks.zip (chunks.map fun c => tokenSet c.text)).filterMap fun p =>
      if (p.2 ∩ qts) = ∅ then none
      else some ⟨p.1, (p.2 ∩ qts).sum idf⟩) = specMatches idf chunks qts := by
  rw [zip_map_filterMap]
  induction chunks with
  | nil => rfl
  | cons c cs ih =>
    unfold specMatches at ih ⊢
    rw [List.filterMap_cons, List.filter_cons]
    by_cases h : tokenSet c.text ∩ qts = ∅
    · rw [if_pos h, if_neg (by simp [h])]
      exact ih
    · rw [if_neg h, if_pos (by simp [h])]
      rw [List.map_cons, ih]

theorem scoreDescLE_trans (a b c : ChunkMatch)
    (h₁ : scoreDescLE a b) (h₂ : scoreDescLE b c) : scoreDescLE a c := by
  simp only [scoreDescLE, decide_eq_true_eq] at h₁ h₂ ⊢
  exact le_trans h₂ h₁

theorem scoreDescLE_total (a b : ChunkMatch) :
    (scoreDescLE a b || scoreDescLE b a) = true := by
  simp only [scoreDescLE, Bool.or_eq_true, decide_eq_true_eq]
  exact le_total b.score a.score

/-- Unfolding: `retrieve` with a non-empty query token set is a truncated stable sort of
the spec's match list. -/
theorem retrieve_eq_sorted (idf : List Char → ℚ) (chunks : List TextChunk)
    (question : List Char) (k : Nat) (hq : tokenSet question ≠ ∅) :
    retrieve idf chunks question k =
      ((specMatches idf chunks (tokenSet question)).mergeSort
        scoreDescLE).take k := by
  simp only [retrieve]
  rw [if_neg hq, scored_eq_specMatches]

/-- C5: `retrieve` returns no matches for a stopword-only (token-free)
query; otherwise it returns exactly the chunks whose token set intersects
the query tokens — each scored as the idf sum over the intersection, in
descending score order with ties kept in original chunk order — truncated to
at most `top_k`.  `specMatches` is the spec-side description.  The second
conjunct characterises the output completely, truncation included: it is the
first `top_k` of the stable descending sort of `specMatches`.  The remaining
conjuncts spell that out without mentioning the sort: the length is
`min top_k |matches|`; members are matches with the claimed score; the output
is descending; within each score class the output is an initial segment of
the matches in original chunk order; the kept matches are top-ranked (no
omitted match outscores any returned one); and without truncation the output
is exactly the match set. -/
theorem retrieve_matches_spec (idf : List Char → ℚ) (chunks : List TextChunk)
    (question : List Char) (k : Nat) :
    (tokenSet question = ∅ → retrieve idf chunks question k = [])
    ∧ retrieve idf chunks question k =
        ((specMatches idf chunks (tokenSet question)).mergeSort
          scoreDescLE).take k
    ∧ (retrieve idf chunks question k).length =
        min k (specMatches idf chunks (tokenSet question)).length
    ∧ (∀ m ∈ retrieve idf chunks question k,
        m ∈ specMatches idf chunks (tokenSet question))
    ∧ (retrieve idf chunks question k).Pairwise
        (fun a b => b.score ≤ a.score)
    ∧ (∀ s : ℚ, List.IsPrefix
        ((retrieve idf chunks question k).filter
          (fun m => decide (m.score = s)))
        ((specMatches idf chunks (tokenSet question)).filter
          (fun m => decide (m.score = s))))
    ∧ (∀ m ∈ specMatches idf chunks (tokenSet question),
        m ∉ retrieve idf chunks question k →
        ∀ m' ∈ retrieve idf chunks question k, m.score ≤ m'.score)
    ∧ ((specMatches idf chunks (tokenSet question)).length ≤ k →
        (retrieve idf chunks question k).Perm
          (specMatches idf chunks (tokenSet question))) := by
  by_cases hq : tokenSet question = ∅
  · have hr : retrieve idf chunks question k = [] := by
      simp [retrieve, hq]
    have hS : specMatches idf chunks (tokenSet question) = [] := by
      unfold specMatches
      rw [show (chunks.filter fun c =>
          decide (tokenSet c.text ∩ tokenSet question ≠ ∅)) = [] from ?_]
      · rfl
      · rw [List.filter_eq_nil_iff]
        intro c _
        simp [hq]
    rw [hr, hS]
    simp
  · have hr := retrieve_eq_sorted idf chunks question k hq
    have hsorted := List.sorted_mergeSort scoreDescLE_trans scoreDescLE_total
      (specMatches idf chunks (tokenSet question))
    have hperm := List.mergeSort_perm
      (specMatches idf chunks (tokenSet question)) scoreDescLE
    refine ⟨fun h => absurd h hq, hr, ?_, ?_, ?_, ?_, ?_, ?_⟩
    · rw [hr, List.length_take, List.length_mergeSort]
    · intro m hm
      rw [hr] at hm
      exact List.mem_mergeSort.mp (List.mem_of_mem_take hm)
    · rw [hr]
      have := (List.Pairwise.sublist (List.take_sublist k _) hsorted)
      exact this.imp (fun h => of_decide_eq_true h)
    · intro s
      have hfiltS : ((specMatches idf chunks (tokenSet question)).filter
          (fun m => decide (m.score = s))).Pairwise
          (fun a b => scoreDescLE a b = true) := by
        apply List.pairwise_of_forall_mem_list
        intro a ha b hb
        have ha' := of_decide_eq_true (List.mem_filter.mp ha).2
        have hb' := of_decide_eq_true (List.mem_filter.mp hb).2
        show scoreDescLE a b = true
        simp [scoreDescLE, ha', hb']
      have h1 : List.Sublist
          ((specMatches idf chunks (tokenSet question)).filter
            (fun m => decide (m.score = s)))
          ((specMatches idf chunks (tokenSet question)).mergeSort scoreDescLE) :=
        List.sublist_mergeSort scoreDescLE_trans scoreDescLE_total hfiltS
          (List.filter_sublist _)
      have h2 : (((specMatches idf chunks (tokenSet question)).filter
            (fun m => decide (m.score = s))).filter
          (fun m => decide (m.score = s))) =
          ((specMatches idf chunks (tokenSet question)).filter
            (fun m => decide (m.score = s))) :=
        List.filter_eq_self.mpr (fun a ha => (List.mem_filter.mp ha).2)
      have h3 := h1.filter (fun m => decide (m.score = s))
      rw [h2] at h3
      have h4 : (((specMatches idf chunks (tokenSet question)).mergeSort
            scoreDescLE).filter (fun m => decide (m.score = s))).Perm
          ((specMatches idf chunks (tokenSet question)).filter
            (fun m => decide (m.score = s))) :=
        hperm.filter _
      have h5 : ((specMatches idf chunks (tokenSet question)).filter
            (fun m => decide (m.score = s))) =
          (((specMatches idf chunks (tokenSet question)).mergeSort
            scoreDescLE).filter (fun m => decide (m.score = s))) :=
        h3.eq_of_length h4.length_eq.symm
      rw [hr, h5]
      exact (show List.IsPrefix (List.take k (((specMatches idf chunks
        (tokenSet question)).mergeSort scoreDescLE))) _ from
        ⟨_, List.take_append_drop k _⟩).filter _
    · intro m hmS hmr m' hm'
      rw [hr] at hmr hm'
      have hmM : m ∈ (specMatches idf chunks (tokenSet question)).mergeSort
          scoreDescLE := List.mem_mergeSort.mpr hmS
      have hsplit : List.take k ((specMatches idf chunks
            (tokenSet question)).mergeSort scoreDescLE) ++
          List.drop k ((specMatches idf chunks
            (tokenSet question)).mergeSort scoreDescLE) =
          (specMatches idf chunks (tokenSet question)).mergeSort scoreDescLE :=
        List.take_append_drop k _
      have hmM' : m ∈ List.take k ((specMatches idf chunks
            (tokenSet question)).mergeSort scoreDescLE) ++
          List.drop k ((specMatches idf chunks
            (tokenSet question)).mergeSort scoreDescLE) := by
        rw [hsplit]; exact hmM
      rcases List.mem_append.mp hmM' with h | h
      · exact absurd h hmr
      · have hsorted' : (List.take k ((specMatches idf chunks
              (tokenSet question)).mergeSort scoreDescLE) ++
            List.drop k ((specMatches idf chunks
              (tokenSet question)).mergeSort scoreDescLE)).Pairwise
            (fun a b => scoreDescLE a b = true) := by
          rw [hsplit]; exact hsorted
        exact of_decide_eq_true
          ((List.pairwise_append.mp hsorted').2.2 m' hm' m h)
    · intro hlen
      rw [hr, List.take_of_length_le (by rw [List.length_mergeSort]; exact hlen)]
      exact hperm

/-- Witness for C5: the spec's example — a stopword-only query returns no
matches, a real query with room returns exactly the intersecting chunks, and
with `top_k = 1` the output is the head of the stable descending sort of the
match list (the truncation case). -/
theorem retrieve_matches_spec_witness :
    retrieve (fun _ => (1 : ℚ))
        [⟨0, 0, "Total assets and liabilities rose".toList, ⟨0, 1, [], []⟩⟩,
         ⟨0, 1, "unrelated words here".toList, ⟨1, 1, [], []⟩⟩]
        "the and of".toList 3 = []
    ∧ (retrieve (fun _ => (1 : ℚ))
        [⟨0, 0, "Total assets and liabilities rose".toList, ⟨0, 1, [], []⟩⟩,
         ⟨0, 1, "unrelated words here".toList, ⟨1, 1, [], []⟩⟩]
        "assets liabilities".toList 3).Perm
      (specMatches (fun _ => (1 : ℚ))
        [⟨0, 0, "Total assets and liabilities rose".toList, ⟨0, 1, [], []⟩⟩,
         ⟨0, 1, "unrelated words here".toList, ⟨1, 1, [], []⟩⟩]
        (tokenSet "assets liabilities".toList))
    ∧ retrieve (fun _ => (1 : ℚ))
        [⟨0, 0, "Total assets and liabilities rose".toList, ⟨0, 1, [], []⟩⟩,
         ⟨0, 1, "unrelated words here".toList, ⟨1, 1, [], []⟩⟩]
        "assets liabilities".toList 1 =
      ((specMatches (fun _ => (1 : ℚ))
        [⟨0, 0, "Total assets and liabilities rose".toList, ⟨0, 1, [], []⟩⟩,
         ⟨0, 1, "unrelated words here".toList, ⟨1, 1, [], []⟩⟩]
        (tokenSet "assets liabilities".toList)).mergeSort scoreDescLE).take 1 :=
  ⟨(retrieve_matches_spec (fun _ => (1 : ℚ))
      [⟨0, 0, "Total assets and liabilities rose".toList, ⟨0, 1, [], []⟩⟩,
       ⟨0, 1, "unrelated words here".toList, ⟨1, 1, [], []⟩⟩]
      "the and of".toList 3).1 (by decide),
   (retrieve_matches_spec (fun _ => (1 : ℚ))
      [⟨0, 0, "Total assets and liabilities rose".toList, ⟨0, 1, [], []⟩⟩,
       ⟨0, 1, "unrelated words here".toList, ⟨1, 1, [], []⟩⟩]
      "assets liabilities".toList 3).2.2.2.2.2.2.2 (by decide),
   (retrieve_matches_spec (fun _ => (1 : ℚ))
      [⟨0, 0, "Total assets and liabilities rose".toList, ⟨0, 1, [], []⟩⟩,
       ⟨0, 1, "unrelated words here".toList, ⟨1, 1, [], []⟩⟩]
      "assets liabilities".toList 1).2.1⟩

end PdfToFigures
